import Mathlib

set_option maxHeartbeats 1000000
set_option maxRecDepth 100000

/-!
Verification of the product-key decoder in `main.go` of the `mskeys`
repository.  Bytes are modelled as `Nat`; the Go cast `byte(x)` is
rendered as `x % 256`.  Buffers and segments are `List Nat` in the same
order as the Go slices (index 0 = head = least-significant byte of a
key segment).
-/

/-- The 24-symbol key alphabet, `const keyChars` in `main.go`. -/
def keyChars : String := "BCDFGHJKMPQRTVWXY2346789"

/-- Indexing `keyChars[n]` from the source.  The index is always `< 24`
at every call site (the accumulator is a `% 24` result), so the default
is never used. -/
def keyChar (n : Nat) : Char := keyChars.data.getD n 'B'

/-- One full pass of the inner long-division loop of `decodeKeySegment`
(`for j := 14; j >= 0; j--`): the list is the working buffer `tmp` in Go
order (index 0 = head); the Go loop processes the highest index first,
i.e. the tail of the list before its head.  `tmp[j] = byte(acc / 24)` is
modelled as `acc / 24 % 256`. -/
def divLoop : List Nat → Nat → List Nat × Nat
  | [], acc => ([], acc)
  | b :: rest, acc =>
    let r := divLoop rest acc
    let a := r.2 * 256 + b
    (a / 24 % 256 :: r.1, a % 24)

/-- The outer loop of `decodeKeySegment` (`for i := 24; i >= 0; i--`),
with `n + 1` iterations remaining corresponding to `i = n`.  Each round
runs one long-division pass with `acc` starting at `0`, prepends the
alphabet character of the final remainder, and prepends a hyphen when
`i%5 == 0 && i != 0`. -/
def decodeRounds : Nat → List Nat → List Char → List Char
  | 0, _, decoded => decoded
  | n + 1, tmp, decoded =>
    let r := divLoop tmp 0
    let d1 := keyChar r.2 :: decoded
    decodeRounds n r.1 (if n % 5 = 0 ∧ n ≠ 0 then '-' :: d1 else d1)

/-- `decodeKeySegment` from `main.go`.  The Go function copies `segment`
into a fresh 15-byte array `tmp` (`make` + `copy`); under the length
guard `len(segment) == 15` that copy equals `segment` itself. -/
def decodeKeySegment (segment : List Nat) : String :=
  if segment.length ≠ 15 then ""
  else
    let decoded := decodeRounds 25 segment []
    if decoded.length ≠ 29 then "" else String.mk decoded

/-- The offsets visited by the fallback loop of `DecodeDigitalProductId`
(`for offset := 40; offset < len(data)-15; offset++`) on a buffer of
length `n`. -/
def scanOffsets (n : Nat) : List Nat := List.range' 40 (n - 15 - 40)

/-- The body of the fallback loop of `DecodeDigitalProductId`: try each
offset in order, return the first non-empty decode of
`data[offset : offset+15]`, and `""` when the loop falls through. -/
def scanFirst (data : List Nat) : List Nat → String
  | [] => ""
  | off :: rest =>
    let key := decodeKeySegment ((data.drop off).take 15)
    if key ≠ "" then key else scanFirst data rest

/-- `DecodeDigitalProductId` from `main.go`.  `data[52:67]` is
`(data.drop 52).take 15`; the `copy` into the fresh 15-byte `segment`
array transfers all 15 bytes because `len(data) ≥ 67`. -/
def DecodeDigitalProductId (data : List Nat) : String :=
  if data.length < 67 then ""
  else
    let decoded := decodeKeySegment ((data.drop 52).take 15)
    if decoded ≠ "" then decoded
    else scanFirst data (scanOffsets data.length)

/-- The value `V` of a segment as named by the spec: the bytes as
digits, least-significant first, of an unsigned integer. -/
def segValue (seg : List Nat) : Nat := seg.foldr (fun b v => v * 256 + b) 0

/-- Abstract rendering of `n` rounds of the outer loop directly on the
numeric value of the working buffer; used to relate `decodeRounds` to
the base-24 digits of `segValue`. -/
def renderRounds : Nat → Nat → List Char
  | 0, _ => []
  | n + 1, v =>
    renderRounds n (v / 24) ++
      (if n % 5 = 0 ∧ n ≠ 0 then ['-'] else []) ++ [keyChar (v % 24)]

/-- The low `n` base-24 digits of `v`, most significant first, mapped
through the alphabet. -/
def base24Digits : Nat → Nat → List Char
  | 0, _ => []
  | n + 1, v => base24Digits n (v / 24) ++ [keyChar (v % 24)]

/-- Number of hyphens inserted by `n` rounds of the outer loop. -/
def hyphenCount : Nat → Nat
  | 0 => 0
  | n + 1 => hyphenCount n + (if n % 5 = 0 ∧ n ≠ 0 then 1 else 0)

theorem segValue_nil : segValue [] = 0 := rfl

theorem segValue_cons (b : Nat) (rest : List Nat) :
    segValue (b :: rest) = segValue rest * 256 + b := rfl

theorem divLoop_length (tmp : List Nat) (acc : Nat) :
    (divLoop tmp acc).1.length = tmp.length := by
  induction tmp with
  | nil => rfl
  | cons b rest ih => simp [divLoop, ih]

theorem divLoop_snd_lt (tmp : List Nat) (acc : Nat) (h : acc < 24) :
    (divLoop tmp acc).2 < 24 := by
  cases tmp with
  | nil => exact h
  | cons b rest =>
    simp only [divLoop]
    omega

theorem divLoop_mem_lt (tmp : List Nat) (acc : Nat) :
    ∀ x ∈ (divLoop tmp acc).1, x < 256 := by
  induction tmp with
  | nil => intro x hx; simp [divLoop] at hx
  | cons b rest ih =>
    intro x hx
    simp only [divLoop, List.mem_cons] at hx
    rcases hx with h | h
    · omega
    · exact ih x h

theorem divLoop_val (tmp : List Nat) (acc : Nat) (ha : acc < 24)
    (hb : ∀ x ∈ tmp, x < 256) :
    segValue (divLoop tmp acc).1 = (acc * 256 ^ tmp.length + segValue tmp) / 24 ∧
      (divLoop tmp acc).2 = (acc * 256 ^ tmp.length + segValue tmp) % 24 := by
  induction tmp with
  | nil =>
    constructor
    · show segValue [] = (acc * 256 ^ 0 + segValue []) / 24
      simp [segValue_nil]
      omega
    · show acc = (acc * 256 ^ 0 + segValue []) % 24
      simp [segValue_nil]
      omega
  | cons b rest ih =>
    have hbb : b < 256 := hb b (by simp)
    have hrest : ∀ x ∈ rest, x < 256 := fun x hx => hb x (by simp [hx])
    obtain ⟨h1, h2⟩ := ih hrest
    have hr2 : (divLoop rest acc).2 < 24 := divLoop_snd_lt rest acc ha
    have key : acc * 256 ^ (b :: rest).length + segValue (b :: rest) =
        256 * (acc * 256 ^ rest.length + segValue rest) + b := by
      rw [segValue_cons, List.length_cons, pow_succ]
      ring
    constructor
    · show segValue (((divLoop rest acc).2 * 256 + b) / 24 % 256 :: (divLoop rest acc).1) = _
      rw [segValue_cons, key, h1, h2]
      omega
    · show ((divLoop rest acc).2 * 256 + b) % 24 = _
      rw [key, h2]
      omega

theorem decodeRounds_length (n : Nat) :
    ∀ tmp decoded, (decodeRounds n tmp decoded).length =
      n + hyphenCount n + decoded.length := by
  induction n with
  | zero => intro tmp d; simp [decodeRounds, hyphenCount]
  | succ n ih =>
    intro tmp d
    simp only [decodeRounds]
    by_cases hc : n % 5 = 0 ∧ n ≠ 0
    · simp only [if_pos hc, ih, hyphenCount, List.length_cons]
      omega
    · simp only [if_neg hc, ih, hyphenCount, List.length_cons]
      omega

theorem decodeRounds_render (n : Nat) :
    ∀ tmp decoded, (∀ x ∈ tmp, x < 256) →
      decodeRounds n tmp decoded = renderRounds n (segValue tmp) ++ decoded := by
  induction n with
  | zero => intro tmp d _; rfl
  | succ n ih =>
    intro tmp d hb
    obtain ⟨h1, h2⟩ := divLoop_val tmp 0 (by norm_num) hb
    simp only [Nat.zero_mul, Nat.zero_add] at h1 h2
    simp only [decodeRounds, renderRounds]
    rw [ih _ _ (divLoop_mem_lt tmp 0), h1, h2]
    by_cases hc : n % 5 = 0 ∧ n ≠ 0
    · simp [hc]
    · simp [hc]

theorem decodeKeySegment_eq (segment : List Nat) (h : segment.length = 15) :
    decodeKeySegment segment = String.mk (decodeRounds 25 segment []) := by
  have hl : (decodeRounds 25 segment []).length = 29 := by
    rw [decodeRounds_length]
    rfl
  simp [decodeKeySegment, h, hl]

theorem decodeKeySegment_ne_empty (segment : List Nat) (h : segment.length = 15) :
    decodeKeySegment segment ≠ "" := by
  rw [decodeKeySegment_eq segment h]
  intro he
  have hl : (decodeRounds 25 segment []).length = 29 := by
    rw [decodeRounds_length]
    rfl
  have hd : decodeRounds 25 segment [] = [] := by
    simpa using congrArg String.data he
  rw [hd] at hl
  simp at hl

theorem slice_length_15 (data : List Nat) (off : Nat) (h : off + 15 ≤ data.length) :
    ((data.drop off).take 15).length = 15 := by
  simp only [List.length_take, List.length_drop]
  omega

theorem decode_primary (data : List Nat) (h : 67 ≤ data.length) :
    DecodeDigitalProductId data = decodeKeySegment ((data.drop 52).take 15) := by
  have hs : ((data.drop 52).take 15).length = 15 := slice_length_15 data 52 (by omega)
  have hne := decodeKeySegment_ne_empty _ hs
  simp only [DecodeDigitalProductId, if_neg (Nat.not_lt.mpr h), if_pos hne]

/-- Modelled from the spec: the fallback range the spec asserts, namely
"offsets 40 through `len(buffer)-15` inclusive" — to be compared with
the source-derived `scanOffsets`. -/
def claimedScanOffsets (n : Nat) : List Nat := List.range' 40 (n - 54)

/-- C5: `decodeKeySegment` never returns the empty string on a 15-byte
input: the outer loop always emits exactly 29 characters, so the final
`len(decoded) != 29` branch is unreachable, and the empty string is
returned exactly when the input length differs from 15. -/
theorem c5_decode_total : ∀ seg : List Nat,
    (decodeRounds 25 seg []).length = 29 ∧
      (decodeKeySegment seg = "" ↔ seg.length ≠ 15) := by
  intro seg
  have hl : (decodeRounds 25 seg []).length = 29 := by
    rw [decodeRounds_length]
    rfl
  refine ⟨hl, ?_, ?_⟩
  · intro he
    by_contra hne
    exact decodeKeySegment_ne_empty seg hne he
  · intro h
    simp [decodeKeySegment, h]

/-- C8: the length guards: `decodeKeySegment` returns the empty string
on every input whose length is not 15, and `DecodeDigitalProductId`
returns the empty string on every buffer shorter than 67 bytes. -/
theorem c8_length_guards :
    (∀ seg : List Nat, seg.length ≠ 15 → decodeKeySegment seg = "") ∧
      (∀ data : List Nat, data.length < 67 → DecodeDigitalProductId data = "") := by
  constructor
  · intro seg h
    simp [decodeKeySegment, h]
  · intro data h
    simp [DecodeDigitalProductId, h]

theorem c8_witness :
    decodeKeySegment [0, 0, 0] = "" ∧
      DecodeDigitalProductId (List.replicate 10 (0 : Nat)) = "" :=
  ⟨c8_length_guards.1 _ (by decide), c8_length_guards.2 _ (by decide)⟩

/-- C1 (counterexample): the all-zero 200-byte buffer does not yield the
empty string from `DecodeDigitalProductId`; every 15-byte window of it
decodes to the structurally valid key `BBBBB-BBBBB-BBBBB-BBBBB-BBBBB`,
which the locator returns from the primary offset. -/
theorem c1_cex :
    DecodeDigitalProductId (List.replicate 200 0) = "BBBBB-BBBBB-BBBBB-BBBBB-BBBBB" ∧
      DecodeDigitalProductId (List.replicate 200 0) ≠ "" := by
  constructor
  · decide
  · decide

/-- C1 (amended): `DecodeDigitalProductId` returns the empty string
exactly for buffers shorter than 67 bytes; on any longer buffer the
primary window always decodes to a structurally valid key, so "no key
found" is reported only for short buffers. -/
theorem c1_empty_iff_short : ∀ data : List Nat,
    DecodeDigitalProductId data = "" ↔ data.length < 67 := by
  intro data
  constructor
  · intro he
    by_contra h
    push_neg at h
    rw [decode_primary data h] at he
    exact decodeKeySegment_ne_empty _ (slice_length_15 data 52 (by omega)) he
  · intro h
    simp [DecodeDigitalProductId, h]

/-- C6: on every buffer of length at least 67, `DecodeDigitalProductId`
returns exactly the decode of bytes 52..66, which is non-empty, so the
fallback scan is never entered. -/
theorem c6_primary_only : ∀ data : List Nat, 67 ≤ data.length →
    DecodeDigitalProductId data = decodeKeySegment ((data.drop 52).take 15) ∧
      decodeKeySegment ((data.drop 52).take 15) ≠ "" := by
  intro data h
  exact ⟨decode_primary data h,
    decodeKeySegment_ne_empty _ (slice_length_15 data 52 (by omega))⟩

theorem c6_witness :
    DecodeDigitalProductId (List.replicate 67 (0 : Nat)) =
        decodeKeySegment (((List.replicate 67 (0 : Nat)).drop 52).take 15) ∧
      decodeKeySegment (((List.replicate 67 (0 : Nat)).drop 52).take 15) ≠ "" :=
  c6_primary_only _ (by decide)

/-- C7: when the window at bytes 52..66 decodes to a 29-character key,
the locator returns exactly that key, and the result does not depend on
any byte outside the window (two buffers agreeing on the window give the
same result). -/
theorem c7_primary_wins : ∀ data data' : List Nat,
    67 ≤ data.length → 67 ≤ data'.length →
    (data.drop 52).take 15 = (data'.drop 52).take 15 →
    (decodeKeySegment ((data.drop 52).take 15)).length = 29 →
    DecodeDigitalProductId data = decodeKeySegment ((data.drop 52).take 15) ∧
      DecodeDigitalProductId data = DecodeDigitalProductId data' := by
  intro data data' h h' hseg _
  refine ⟨decode_primary data h, ?_⟩
  rw [decode_primary data h, decode_primary data' h', hseg]

theorem c7_witness :
    (decodeKeySegment (((List.replicate 67 (0 : Nat)).drop 52).take 15)).length = 29 ∧
      (DecodeDigitalProductId (List.replicate 67 (0 : Nat)) =
          decodeKeySegment (((List.replicate 67 (0 : Nat)).drop 52).take 15) ∧
        DecodeDigitalProductId (List.replicate 67 (0 : Nat)) =
          DecodeDigitalProductId (List.replicate 67 (0 : Nat) ++ List.replicate 10 7)) :=
  ⟨by decide, c7_primary_wins _ _ (by decide) (by decide) (by decide) (by decide)⟩

/-- C4 (counterexample): the fallback loop's offset range is not
"40 through `len(buffer)-15` inclusive": for a 67-byte buffer the loop
visits offsets 40..51 only, excluding offset 52 = 67-15 which the claim
includes. -/
theorem c4_cex :
    scanOffsets 67 ≠ claimedScanOffsets 67 ∧
      52 ∉ scanOffsets 67 ∧ 52 ∈ claimedScanOffsets 67 := by
  refine ⟨by decide, by decide, by decide⟩

/-- C4 (amended): on buffers of length at least 67 the locator is the
primary decode followed, when the primary decode is empty, by a scan of
offsets 40 through `len(buffer)-16` inclusive in ascending order taking
the first non-empty decode; moreover the primary decode is never empty,
so the fallback scan is unreachable. -/
theorem c4_scan_range : ∀ data : List Nat, 67 ≤ data.length →
    scanOffsets data.length = List.range' 40 (data.length - 55) ∧
      DecodeDigitalProductId data =
        (if decodeKeySegment ((data.drop 52).take 15) ≠ "" then
          decodeKeySegment ((data.drop 52).take 15)
        else scanFirst data (List.range' 40 (data.length - 55))) ∧
      decodeKeySegment ((data.drop 52).take 15) ≠ "" := by
  intro data h
  have hoff : data.length - 15 - 40 = data.length - 55 := by omega
  have hne := decodeKeySegment_ne_empty _ (slice_length_15 data 52 (by omega))
  refine ⟨by simp [scanOffsets, hoff], ?_, hne⟩
  rw [decode_primary data h, if_pos hne]

theorem c4_witness :
    scanOffsets (List.replicate 67 (0 : Nat)).length =
        List.range' 40 ((List.replicate 67 (0 : Nat)).length - 55) ∧
      DecodeDigitalProductId (List.replicate 67 (0 : Nat)) =
        (if decodeKeySegment (((List.replicate 67 (0 : Nat)).drop 52).take 15) ≠ "" then
          decodeKeySegment (((List.replicate 67 (0 : Nat)).drop 52).take 15)
        else scanFirst (List.replicate 67 (0 : Nat))
          (List.range' 40 ((List.replicate 67 (0 : Nat)).length - 55))) ∧
      decodeKeySegment (((List.replicate 67 (0 : Nat)).drop 52).take 15) ≠ "" :=
  c4_scan_range _ (by decide)

theorem keyChar_mem (n : Nat) : keyChar n ∈ keyChars.data := by
  by_cases h : n < 24
  · have hall : ∀ m, m < 24 → keyChars.data.getD m 'B' ∈ keyChars.data := by decide
    exact hall n h
  · rw [keyChar, List.getD_eq_default]
    · decide
    · push_neg at h
      calc keyChars.data.length = 24 := by decide
        _ ≤ n := h

theorem hyphen_not_mem : '-' ∉ keyChars.data := by decide

theorem keyChar_ne_hyphen (n : Nat) : keyChar n ≠ '-' :=
  fun h => hyphen_not_mem (h ▸ keyChar_mem n)

theorem renderRounds_filter (n : Nat) : ∀ v,
    (renderRounds n v).filter (fun c => c != '-') = base24Digits n v := by
  induction n with
  | zero => intro v; rfl
  | succ n ih =>
    intro v
    simp only [renderRounds, base24Digits, List.filter_append]
    rw [ih]
    have hk : (keyChar (v % 24) != '-') = true := by
      simpa using keyChar_ne_hyphen (v % 24)
    by_cases hc : n % 5 = 0 ∧ n ≠ 0
    · simp [hc, hk]
    · simp [hc, hk]

theorem base24Digits_reverse (n : Nat) : ∀ v,
    (base24Digits n v).reverse =
      (List.range n).map (fun k => keyChar (v / 24 ^ k % 24)) := by
  induction n with
  | zero => intro v; rfl
  | succ n ih =>
    intro v
    rw [List.range_succ_eq_map]
    simp only [base24Digits, List.reverse_append, List.reverse_cons, List.reverse_nil,
      List.nil_append, List.map_cons, List.singleton_append]
    rw [ih (v / 24), List.map_map]
    congr 1
    · simp
    · apply List.map_congr_left
      intro k _
      have hdd : v / 24 / 24 ^ k = v / 24 ^ (k + 1) := by
        rw [Nat.div_div_eq_div_mul, ← pow_succ']
      simp [Function.comp, hdd]

theorem renderRounds_succ (n v : Nat) :
    renderRounds (n + 1) v = renderRounds n (v / 24) ++
      (if n % 5 = 0 ∧ n ≠ 0 then ['-'] else []) ++ [keyChar (v % 24)] := rfl

theorem renderRounds_add_five (n v : Nat) (h : n % 5 = 0) :
    renderRounds (n + 5) v = renderRounds n (v / 24 ^ 5) ++
      (if n ≠ 0 then ['-'] else []) ++
      [keyChar (v / 24 ^ 4 % 24), keyChar (v / 24 ^ 3 % 24), keyChar (v / 24 ^ 2 % 24),
        keyChar (v / 24 % 24), keyChar (v % 24)] := by
  have c4 : ¬((n + 1 + 1 + 1 + 1) % 5 = 0 ∧ n + 1 + 1 + 1 + 1 ≠ 0) := by omega
  have c3 : ¬((n + 1 + 1 + 1) % 5 = 0 ∧ n + 1 + 1 + 1 ≠ 0) := by omega
  have c2 : ¬((n + 1 + 1) % 5 = 0 ∧ n + 1 + 1 ≠ 0) := by omega
  have c1 : ¬((n + 1) % 5 = 0 ∧ n + 1 ≠ 0) := by omega
  have e : n + 5 = n + 1 + 1 + 1 + 1 + 1 := by omega
  rw [e, renderRounds_succ, renderRounds_succ, renderRounds_succ, renderRounds_succ,
    renderRounds_succ, if_neg c4, if_neg c3, if_neg c2, if_neg c1]
  by_cases hn : n = 0
  · subst hn
    simp [Nat.div_div_eq_div_mul]
  · rw [if_pos (⟨h, hn⟩ : n % 5 = 0 ∧ n ≠ 0), if_pos hn]
    simp [Nat.div_div_eq_div_mul]

/-- One 5-character group of the rendered key, for the working value `v`
at the start of the group's five rounds. -/
def keyGroup (v : Nat) : List Char :=
  [keyChar (v / 24 ^ 4 % 24), keyChar (v / 24 ^ 3 % 24), keyChar (v / 24 ^ 2 % 24),
    keyChar (v / 24 % 24), keyChar (v % 24)]

theorem renderRounds_25_shape (v : Nat) :
    renderRounds 25 v =
      keyGroup (v / 24 ^ 20) ++ '-' :: (keyGroup (v / 24 ^ 15) ++ '-' ::
        (keyGroup (v / 24 ^ 10) ++ '-' :: (keyGroup (v / 24 ^ 5) ++ '-' :: keyGroup v))) := by
  have dd : ∀ a b w : Nat, w / 24 ^ a / 24 ^ b = w / 24 ^ (a + b) := by
    intro a b w
    rw [Nat.div_div_eq_div_mul, ← pow_add]
  have hA := renderRounds_add_five 20 v (by norm_num)
  have hB := renderRounds_add_five 15 (v / 24 ^ 5) (by norm_num)
  have hC := renderRounds_add_five 10 (v / 24 ^ 10) (by norm_num)
  have hD := renderRounds_add_five 5 (v / 24 ^ 15) (by norm_num)
  have hE := renderRounds_add_five 0 (v / 24 ^ 20) (by norm_num)
  rw [dd] at hB hC hD hE
  norm_num at hA hB hC hD hE
  rw [hA, hB, hC, hD, hE]
  simp [keyGroup, renderRounds]

/-- C3: on every 15-byte input, `decodeKeySegment` returns either the
empty string or a 29-character string made of five 5-character groups
drawn solely from the 24-symbol alphabet, separated by hyphens at the
fixed grouped positions. -/
theorem c3_key_structure : ∀ seg : List Nat, seg.length = 15 → (∀ b ∈ seg, b < 256) →
    decodeKeySegment seg = "" ∨
      ((decodeKeySegment seg).length = 29 ∧
        ∃ g1 g2 g3 g4 g5 : List Char,
          g1.length = 5 ∧ g2.length = 5 ∧ g3.length = 5 ∧ g4.length = 5 ∧ g5.length = 5 ∧
          (∀ c : Char, c ∈ g1 ∨ c ∈ g2 ∨ c ∈ g3 ∨ c ∈ g4 ∨ c ∈ g5 → c ∈ keyChars.data) ∧
          (decodeKeySegment seg).data =
            g1 ++ '-' :: (g2 ++ '-' :: (g3 ++ '-' :: (g4 ++ '-' :: g5)))) := by
  intro seg h15 hb
  right
  have he := decodeKeySegment_eq seg h15
  have hr := decodeRounds_render 25 seg [] hb
  rw [List.append_nil] at hr
  have hl : (decodeRounds 25 seg []).length = 29 := by
    rw [decodeRounds_length]
    rfl
  have hg : ∀ w : Nat, ∀ c ∈ keyGroup w, c ∈ keyChars.data := by
    intro w c hcw
    simp only [keyGroup, List.mem_cons, List.mem_singleton, List.not_mem_nil, or_false] at hcw
    rcases hcw with rfl | rfl | rfl | rfl | rfl <;> exact keyChar_mem _
  constructor
  · rw [he]
    simpa using hl
  · refine ⟨keyGroup (segValue seg / 24 ^ 20), keyGroup (segValue seg / 24 ^ 15),
      keyGroup (segValue seg / 24 ^ 10), keyGroup (segValue seg / 24 ^ 5),
      keyGroup (segValue seg), rfl, rfl, rfl, rfl, rfl, ?_, ?_⟩
    · intro c hc
      rcases hc with h | h | h | h | h <;> exact hg _ _ h
    · rw [he]
      show decodeRounds 25 seg [] = _
      rw [hr, renderRounds_25_shape]

theorem c3_witness :
    decodeKeySegment (List.replicate 15 (0 : Nat)) = "" ∨
      ((decodeKeySegment (List.replicate 15 (0 : Nat))).length = 29 ∧
        ∃ g1 g2 g3 g4 g5 : List Char,
          g1.length = 5 ∧ g2.length = 5 ∧ g3.length = 5 ∧ g4.length = 5 ∧ g5.length = 5 ∧
          (∀ c : Char, c ∈ g1 ∨ c ∈ g2 ∨ c ∈ g3 ∨ c ∈ g4 ∨ c ∈ g5 → c ∈ keyChars.data) ∧
          (decodeKeySegment (List.replicate 15 (0 : Nat))).data =
            g1 ++ '-' :: (g2 ++ '-' :: (g3 ++ '-' :: (g4 ++ '-' :: g5)))) :=
  c3_key_structure _ (by decide) (by decide)

/-- C2: the key produced from a 15-byte segment is the base-24 rendering
of the segment's value `V = Σ byte[i]·256^i`: with hyphens removed, the
`k`-th character from the right is `keyChars[(V / 24^k) % 24]` for
`k = 0..24`. -/
theorem c2_base24_value : ∀ seg : List Nat, seg.length = 15 → (∀ b ∈ seg, b < 256) →
    ((decodeKeySegment seg).data.filter (fun c => c != '-')).reverse =
      (List.range 25).map (fun k => keyChar (segValue seg / 24 ^ k % 24)) := by
  intro seg h15 hb
  have he := decodeKeySegment_eq seg h15
  have hr := decodeRounds_render 25 seg [] hb
  rw [List.append_nil] at hr
  rw [he]
  show ((decodeRounds 25 seg []).filter (fun c => c != '-')).reverse = _
  rw [hr, renderRounds_filter, base24Digits_reverse]

theorem c2_witness :
    (List.replicate 15 (1 : Nat)).length = 15 ∧
      ((decodeKeySegment (List.replicate 15 (1 : Nat))).data.filter
          (fun c => c != '-')).reverse =
        (List.range 25).map
          (fun k => keyChar (segValue (List.replicate 15 (1 : Nat)) / 24 ^ k % 24)) :=
  ⟨by decide, c2_base24_value _ (by decide) (by decide)⟩

/-- Literal state-passing rendering of the inner loop's array writes:
the state is the pair (caller's segment, working buffer `tmp`), and
iteration `j + 1` performs the Go body at index `j`
(`acc = acc*256 + int(tmp[j]); tmp[j] = byte(acc / 24); acc = acc % 24`),
writing only to the `tmp` component. -/
def innerLoopSt : Nat → List Nat × List Nat → Nat → (List Nat × List Nat) × Nat
  | 0, st, acc => (st, acc)
  | j + 1, st, acc =>
    let a := acc * 256 + st.2.getD j 0
    innerLoopSt j (st.1, st.2.set j (a / 24 % 256)) (a % 24)

/-- State-passing rendering of the outer loop, threading the caller's
segment through every round. -/
def decodeRoundsSt :
    Nat → List Nat × List Nat → List Char → (List Nat × List Nat) × List Char
  | 0, st, decoded => (st, decoded)
  | n + 1, st, decoded =>
    let r := innerLoopSt 15 st 0
    let d1 := keyChar r.2 :: decoded
    decodeRoundsSt n r.1 (if n % 5 = 0 ∧ n ≠ 0 then '-' :: d1 else d1)

/-- State-passing rendering of `decodeKeySegment` returning, along with
the result, the caller's segment after the call: `tmp` starts as a fresh
copy of the segment and all writes target `tmp`, so the segment
component is threaded through unchanged. -/
def decodeKeySegmentSt (segment : List Nat) : String × List Nat :=
  if segment.length ≠ 15 then ("", segment)
  else
    let r := decodeRoundsSt 25 (segment, segment) []
    ((if r.2.length ≠ 29 then "" else String.mk r.2), r.1.1)

/-- State-passing rendering of the fallback scan: each probed window
`data[offset : offset+15]` is a slice sharing the buffer's memory, so
the possibly-written slice is written back into the buffer after each
call. -/
def scanFirstSt : List Nat → List Nat → String × List Nat
  | data, [] => ("", data)
  | data, off :: rest =>
    let r := decodeKeySegmentSt ((data.drop off).take 15)
    let data1 := data.take off ++ r.2 ++ data.drop (off + 15)
    if r.1 ≠ "" then (r.1, data1) else scanFirstSt data1 rest

/-- State-passing rendering of `DecodeDigitalProductId`: the primary
window is copied into a fresh segment array, so only the fallback scan
hands out (and writes back) slices of `data`. -/
def DecodeDigitalProductIdSt (data : List Nat) : String × List Nat :=
  if data.length < 67 then ("", data)
  else
    let r := decodeKeySegmentSt ((data.drop 52).take 15)
    if r.1 ≠ "" then (r.1, data)
    else scanFirstSt data (scanOffsets data.length)

theorem getD_append_length (l1 l2 : List Nat) (d : Nat) :
    (l1 ++ l2).getD l1.length d = l2.getD 0 d := by
  induction l1 with
  | nil => rfl
  | cons x xs ih => simpa using ih

theorem set_append_length (l1 l2 : List Nat) (v : Nat) :
    (l1 ++ l2).set l1.length v = l1 ++ l2.set 0 v := by
  induction l1 with
  | nil => rfl
  | cons x xs ih => simp [ih]

theorem divLoop_concat (f : List Nat) (b : Nat) : ∀ acc,
    divLoop (f ++ [b]) acc =
      ((divLoop f ((acc * 256 + b) % 24)).1 ++ [(acc * 256 + b) / 24 % 256],
        (divLoop f ((acc * 256 + b) % 24)).2) := by
  induction f with
  | nil => intro acc; rfl
  | cons x xs ih =>
    intro acc
    simp [List.cons_append, divLoop, ih]

theorem innerLoopSt_eq (front : List Nat) : ∀ (extra seg : List Nat) (acc : Nat),
    innerLoopSt front.length (seg, front ++ extra) acc =
      ((seg, (divLoop front acc).1 ++ extra), (divLoop front acc).2) := by
  induction front using List.reverseRecOn with
  | nil => intro extra seg acc; simp [innerLoopSt, divLoop]
  | append_singleton f b ih =>
    intro extra seg acc
    have hlen : (f ++ [b]).length = f.length + 1 := by simp
    rw [hlen]
    show innerLoopSt (f.length + 1) (seg, (f ++ [b]) ++ extra) acc = _
    simp only [innerLoopSt, List.append_assoc, List.singleton_append,
      getD_append_length, set_append_length, List.getD_cons_zero, List.set_cons_zero]
    rw [ih, divLoop_concat]
    simp [List.append_assoc]

theorem decodeRoundsSt_spec (n : Nat) : ∀ tmp seg decoded, tmp.length = 15 →
    ∃ tmp2 : List Nat, tmp2.length = 15 ∧
      decodeRoundsSt n (seg, tmp) decoded = ((seg, tmp2), decodeRounds n tmp decoded) := by
  induction n with
  | zero => intro tmp seg d h; exact ⟨tmp, h, rfl⟩
  | succ n ih =>
    intro tmp seg d h
    have hinner : innerLoopSt 15 (seg, tmp) 0 =
        ((seg, (divLoop tmp 0).1), (divLoop tmp 0).2) := by
      have h15 := innerLoopSt_eq tmp [] seg 0
      rw [h] at h15
      simpa using h15
    obtain ⟨tmp2, h2, hrec⟩ := ih (divLoop tmp 0).1 seg
      (if n % 5 = 0 ∧ n ≠ 0 then '-' :: keyChar (divLoop tmp 0).2 :: d
        else keyChar (divLoop tmp 0).2 :: d)
      (by rw [divLoop_length]; exact h)
    refine ⟨tmp2, h2, ?_⟩
    simp only [decodeRoundsSt, decodeRounds, hinner]
    exact hrec

theorem decodeKeySegmentSt_spec (segment : List Nat) :
    (decodeKeySegmentSt segment).1 = decodeKeySegment segment ∧
      (decodeKeySegmentSt segment).2 = segment := by
  by_cases h : segment.length = 15
  · obtain ⟨tmp2, h2, hrec⟩ := decodeRoundsSt_spec 25 segment segment [] h
    have hcond : ¬(segment.length ≠ 15) := by simp [h]
    constructor
    · simp only [decodeKeySegmentSt, decodeKeySegment, if_neg hcond, hrec]
    · simp only [decodeKeySegmentSt, if_neg hcond, hrec]
  · constructor <;> simp [decodeKeySegmentSt, decodeKeySegment, h]

theorem slice_writeback (data : List Nat) (off : Nat) :
    data.take off ++ ((data.drop off).take 15 ++ data.drop (off + 15)) = data := by
  rw [List.drop_take_append_drop, List.take_append_drop]

theorem scanFirstSt_spec (offs : List Nat) : ∀ data,
    scanFirstSt data offs = (scanFirst data offs, data) := by
  induction offs with
  | nil => intro data; rfl
  | cons off rest ih =>
    intro data
    obtain ⟨hfst, hsnd⟩ := decodeKeySegmentSt_spec ((data.drop off).take 15)
    simp only [scanFirstSt, scanFirst, hfst, hsnd, List.append_assoc, slice_writeback]
    by_cases hk : decodeKeySegment ((data.drop off).take 15) ≠ ""
    · simp [hk]
    · simp [hk, ih]

theorem DecodeDigitalProductIdSt_spec (data : List Nat) :
    (DecodeDigitalProductIdSt data).1 = DecodeDigitalProductId data ∧
      (DecodeDigitalProductIdSt data).2 = data := by
  by_cases h : data.length < 67
  · constructor <;> simp [DecodeDigitalProductIdSt, DecodeDigitalProductId, h]
  · obtain ⟨hfst, hsnd⟩ := decodeKeySegmentSt_spec ((data.drop 52).take 15)
    have hs := scanFirstSt_spec (scanOffsets data.length) data
    constructor <;>
      · simp only [DecodeDigitalProductIdSt, DecodeDigitalProductId, if_neg h, hfst, hs]
        by_cases hk : decodeKeySegment ((data.drop 52).take 15) ≠ "" <;> simp [hk]

/-- C9: neither core operation mutates its input: in the state-passing
rendering that threads the caller's byte sequences through every array
write, both `decodeKeySegmentSt` and `DecodeDigitalProductIdSt` return
the caller's sequence unchanged while computing the same result as the
plain (pure, hence deterministic) functions. -/
theorem c9_no_mutation : ∀ x : List Nat,
    ((decodeKeySegmentSt x).1 = decodeKeySegment x ∧ (decodeKeySegmentSt x).2 = x) ∧
      ((DecodeDigitalProductIdSt x).1 = DecodeDigitalProductId x ∧
        (DecodeDigitalProductIdSt x).2 = x) :=
  fun x => ⟨decodeKeySegmentSt_spec x, DecodeDigitalProductIdSt_spec x⟩

/-- The `(acc, acc*256 + byte)` pairs observed at the start of each byte
step of one inner-loop pass of `divLoop`. -/
def divLoopSteps : List Nat → Nat → List (Nat × Nat)
  | [], _ => []
  | b :: rest, acc =>
    ((divLoop rest acc).2, (divLoop rest acc).2 * 256 + b) :: divLoopSteps rest acc

/-- C10: accumulator range invariant of the inner long-division loop:
when a pass starts with `acc < 24` (every pass starts at 0) on bytes
`< 256`, then at every byte step the accumulator is in `0..23` and the
intermediate `acc*256 + byte` is at most `6143 < 256·24 ≤ 2^16`, so the
stored quotient fits in a byte and all arithmetic fits in 16 bits. -/
theorem c10_acc_invariant : ∀ tmp acc, acc < 24 → (∀ b ∈ tmp, b < 256) →
    ∀ p ∈ divLoopSteps tmp acc,
      p.1 < 24 ∧ p.2 ≤ 6143 ∧ p.2 < 256 * 24 ∧ p.2 < 2 ^ 16 ∧ p.2 / 24 < 256 := by
  intro tmp
  induction tmp with
  | nil => intro acc _ _ p hp; simp [divLoopSteps] at hp
  | cons b rest ih =>
    intro acc ha hb p hp
    have hbb : b < 256 := hb b (by simp)
    have hrest : ∀ x ∈ rest, x < 256 := fun x hx => hb x (by simp [hx])
    have hr : (divLoop rest acc).2 < 24 := divLoop_snd_lt rest acc ha
    simp only [divLoopSteps, List.mem_cons] at hp
    rcases hp with rfl | hp
    · exact ⟨hr, by omega, by omega, by omega, by omega⟩
    · exact ih acc ha hrest p hp

theorem c10_witness :
    (0 : Nat) < 24 ∧ (∀ b ∈ List.replicate 15 (255 : Nat), b < 256) ∧
      ∀ p ∈ divLoopSteps (List.replicate 15 (255 : Nat)) 0,
        p.1 < 24 ∧ p.2 ≤ 6143 ∧ p.2 < 256 * 24 ∧ p.2 < 2 ^ 16 ∧ p.2 / 24 < 256 :=
  ⟨by decide, by decide, c10_acc_invariant _ _ (by decide) (by decide)⟩
